import Mathlib

/-!
Shallow embedding of the create-gitlab-webhooks tool.

The program reads a manifest of repository paths, expands wildcard group
entries against the remote project catalog, and reconciles one webhook per
repository: fetch existing hooks, delete the first hook whose url equals the
destination URL, then create a fresh hook with a fixed configuration.

The embedding below mirrors the two source variants in the repository:
string splitting and joining follow the JavaScript semantics of
split and join on a single-character separator; the paginated catalog
walk follows the explicit loop of the axios variant
(getAllGroupRepositories); the reconciler (createWebhook) is modelled both
as a state transformer on the server hook list of one repository together
with the trace of API calls it issues, and as a fallible computation over
an API oracle that may fail any individual call.
-/

namespace CreateGitlabWebhooks

/-! ## JavaScript string splitting and joining -/

/-- JavaScript split on a single-character separator, on character lists:
splits at every occurrence of the separator, keeping empty segments,
and the empty string yields one empty segment. -/
def splitChar (c : Char) : List Char → List (List Char)
  | [] => [[]]
  | x :: xs =>
    match splitChar c xs with
    | [] => [[]]
    | y :: ys => if x = c then [] :: y :: ys else (x :: y) :: ys

/-- JavaScript string split on a single-character separator. -/
def jsSplit (c : Char) (s : String) : List String :=
  (splitChar c s.data).map String.mk

/-- JavaScript array join with a separator string. -/
def jsJoin (sep : String) (parts : List String) : String :=
  String.intercalate sep parts

theorem splitChar_ne_nil (c : Char) (l : List Char) : splitChar c l ≠ [] := by
  cases l with
  | nil => simp [splitChar]
  | cons x xs =>
    simp only [splitChar]
    cases h : splitChar c xs with
    | nil => simp
    | cons y ys =>
      by_cases hx : x = c <;> simp [hx]

theorem splitChar_of_not_mem {c : Char} {l : List Char} (h : c ∉ l) :
    splitChar c l = [l] := by
  induction l with
  | nil => rfl
  | cons x xs ih =>
    simp only [List.mem_cons, not_or] at h
    simp only [splitChar, ih h.2]
    have hx : x ≠ c := fun hxc => h.1 hxc.symm
    simp [hx]

theorem jsSplit_of_not_mem {c : Char} {s : String} (h : c ∉ s.data) :
    jsSplit c s = [s] := by
  simp [jsSplit, splitChar_of_not_mem h]

/-! ## Manifest data model -/

/-- A resolved repository target. -/
structure RepositoryRef where
  groupPath : String
  repoName : String
deriving DecidableEq, Repr

/-- A project as returned by the group-projects catalog endpoint. -/
structure Project where
  id : Nat
  name : String
  path_with_namespace : String
deriving DecidableEq, Repr

/-- One paginated group-projects query as issued by the catalog walk. -/
structure ProjectsQuery where
  groupPath : String
  page : Nat
  per_page : Nat
  include_subgroups : Bool
deriving DecidableEq, Repr

/-- The fixed page size used by the paginated catalog walk. -/
def perPage : Nat := 100

/-- The paginated fetch loop of getAllGroupRepositories: starting at the
given page, request pages of size perPage and concatenate the results,
stopping after the first page that returns fewer than perPage items.
The loop in the source has no bound; the fuel argument only serves to
make the definition total and is irrelevant whenever a short page exists
within fuel steps. Returns the concatenated projects and the list of
queries issued, in request order. -/
def fetchAllProjects (pages : Nat → List Project) (gp : String) :
    Nat → Nat → List Project × List ProjectsQuery
  | 0, _ => ([], [])
  | fuel + 1, page =>
    let projects := pages page
    if projects.length < perPage then
      (projects, [⟨gp, page, perPage, true⟩])
    else
      let rest := fetchAllProjects pages gp fuel (page + 1)
      (projects ++ rest.1, ⟨gp, page, perPage, true⟩ :: rest.2)

/-- Derivation of a RepositoryRef from the full namespaced path of a
project: split on the slash, the last segment is the repo name and the
remaining segments rejoined give the group path. -/
def deriveRef (p : Project) : RepositoryRef :=
  let parts := jsSplit '/' p.path_with_namespace
  ⟨jsJoin "/" parts.dropLast, parts.getLastD ""⟩

/-- getAllGroupRepositories: walk the paginated catalog of the group
(starting at page 1) and map every returned project to its
RepositoryRef. Returns the refs and the queries issued. -/
def getAllGroupRepositories (catalog : String → Nat → List Project)
    (fuel : Nat) (gp : String) : List RepositoryRef × List ProjectsQuery :=
  let r := fetchAllProjects (catalog gp) gp fuel 1
  (r.1.map deriveRef, r.2)

/-- Parsing of one manifest line in processRepositories: split on the
slash, pop the last segment as the repo name, join the rest as the group
path. -/
def parseLine (line : String) : String × String :=
  let parts := jsSplit '/' line
  (jsJoin "/" parts.dropLast, parts.getLastD "")

/-- Resolution of one manifest line: a line whose last segment is the
asterisk is expanded through the catalog; any other line yields exactly
one RepositoryRef without touching the catalog. -/
def resolveLine (catalog : String → Nat → List Project) (fuel : Nat)
    (line : String) : List RepositoryRef × List ProjectsQuery :=
  let parsed := parseLine line
  if parsed.2 = "*" then
    getAllGroupRepositories catalog fuel parsed.1
  else
    ([⟨parsed.1, parsed.2⟩], [])

/-- JavaScript string trim: strip leading and trailing whitespace. -/
def jsTrim (s : String) : String :=
  String.mk
    (((s.data.dropWhile Char.isWhitespace).reverse.dropWhile
        Char.isWhitespace).reverse)

/-- The manifest lines kept by processRepositories: split the file content
on newlines and keep the lines whose trimmed form is nonempty. -/
def manifestLines (content : String) : List String :=
  (jsSplit '\n' content).filter (fun l => jsTrim l ≠ "")

/-! ## Webhook reconciler -/

/-- A webhook as it lives on the server side of one repository: the
reconciler reads only the server-assigned id and the url of existing
hooks. -/
structure ServerHook where
  id : Nat
  url : String
deriving DecidableEq, Repr

/-- A JSON value appearing in the webhook creation payload. -/
inductive ConfigVal
  | str (s : String)
  | bool (b : Bool)
deriving DecidableEq, Repr

/-- The fixed placeholder secret baked into the tool. -/
def MASKED_WEBHOOK_PART : String := "secret-token"

/-- The webhookConfig object literal sent on every create call, as an
association list mirroring the JavaScript object: its keys are exactly
url, the three event flags, ssl verification and the token. -/
def webhookConfig (encodedWebhookUrl : String) : List (String × ConfigVal) :=
  [("url", ConfigVal.str encodedWebhookUrl),
   ("push_events", ConfigVal.bool true),
   ("merge_requests_events", ConfigVal.bool true),
   ("issues_events", ConfigVal.bool true),
   ("enable_ssl_verification", ConfigVal.bool true),
   ("token", ConfigVal.str MASKED_WEBHOOK_PART)]

/-- The full project path built by createWebhook. -/
def projectPath (groupPath repoName : String) : String :=
  groupPath ++ "/" ++ repoName

/-- One API call issued by the reconciler, in issue order. -/
inductive ApiCall
  | fetchHooks (p : String)
  | deleteHook (p : String) (id : Nat)
  | createHook (p : String) (cfg : List (String × ConfigVal))
deriving DecidableEq, Repr

/-- createWebhook as a state transformer on the hook list of one
repository, assuming every API call succeeds: fetch the existing hooks,
find the first hook whose url equals the destination URL, delete it by
its id when present, then create the new hook (the server assigns it the
fresh id). Returns the new hook list, the next fresh id and the trace of
API calls issued. -/
def createWebhookState (dest gp rn : String) (hooks : List ServerHook)
    (fresh : Nat) : List ServerHook × Nat × List ApiCall :=
  let p := projectPath gp rn
  match hooks.find? (fun h => h.url == dest) with
  | some h =>
    (hooks.filter (fun k => k.id != h.id) ++ [⟨fresh, dest⟩], fresh + 1,
     [ApiCall.fetchHooks p, ApiCall.deleteHook p h.id,
      ApiCall.createHook p (webhookConfig dest)])
  | none =>
    (hooks ++ [⟨fresh, dest⟩], fresh + 1,
     [ApiCall.fetchHooks p, ApiCall.createHook p (webhookConfig dest)])

/-- Number of hooks in a list whose url equals the destination URL. -/
def countMatching (dest : String) (hooks : List ServerHook) : Nat :=
  (hooks.filter (fun h => h.url == dest)).length

/-- An API error, carrying the HTTP status. -/
structure ApiError where
  status : Nat
deriving DecidableEq, Repr

/-- An oracle fixing the outcome of every remote call: fetching the hooks
of a project, deleting a hook by id, creating a hook from a payload. -/
structure Oracle where
  fetch : String → Except ApiError (List ServerHook)
  deleteHook : String → Nat → Except ApiError Unit
  createHook : String → List (String × ConfigVal) → Except ApiError ServerHook

/-- createWebhook as a fallible computation against an oracle: any failing
call aborts immediately and the error is rethrown. The trace records every
call issued, paired with whether it succeeded. -/
def createWebhookE (o : Oracle) (dest gp rn : String) :
    Except ApiError ServerHook × List (ApiCall × Bool) :=
  let p := projectPath gp rn
  match o.fetch p with
  | .error e => (.error e, [(ApiCall.fetchHooks p, false)])
  | .ok hooks =>
    match hooks.find? (fun h => h.url == dest) with
    | some h =>
      match o.deleteHook p h.id with
      | .error e =>
        (.error e, [(ApiCall.fetchHooks p, true),
                    (ApiCall.deleteHook p h.id, false)])
      | .ok _ =>
        match o.createHook p (webhookConfig dest) with
        | .error e =>
          (.error e, [(ApiCall.fetchHooks p, true),
                      (ApiCall.deleteHook p h.id, true),
                      (ApiCall.createHook p (webhookConfig dest), false)])
        | .ok w =>
          (.ok w, [(ApiCall.fetchHooks p, true),
                   (ApiCall.deleteHook p h.id, true),
                   (ApiCall.createHook p (webhookConfig dest), true)])
    | none =>
      match o.createHook p (webhookConfig dest) with
      | .error e =>
        (.error e, [(ApiCall.fetchHooks p, true),
                    (ApiCall.createHook p (webhookConfig dest), false)])
      | .ok w =>
        (.ok w, [(ApiCall.fetchHooks p, true),
                 (ApiCall.createHook p (webhookConfig dest), true)])

/-- The loop of processRepositories over resolved refs: reconcile each in
order, stopping at the first failure, whose error propagates to the top.
Returns the outcome and the concatenated trace. -/
def processRefs (o : Oracle) (dest : String) :
    List RepositoryRef → Except ApiError Unit × List (ApiCall × Bool)
  | [] => (.ok (), [])
  | r :: rs =>
    let step := createWebhookE o dest r.groupPath r.repoName
    match step.1 with
    | .error e => (.error e, step.2)
    | .ok _ =>
      let rest := processRefs o dest rs
      (rest.1, step.2 ++ rest.2)

/-- Process exit status: nonzero exactly when the run aborted. -/
def exitCode : Except ApiError Unit → Nat
  | .ok _ => 0
  | .error _ => 1

/-- Recognizer for delete calls in a trace. -/
def isDelete : ApiCall → Bool
  | .deleteHook _ _ => true
  | _ => false

/-! ## Reconciler lemmas -/

theorem find?_url_first {dest : String} (pre post : List ServerHook) (h : ServerHook)
    (hpre : ∀ k ∈ pre, k.url ≠ dest) (hh : h.url = dest) :
    (pre ++ h :: post).find? (fun k => k.url == dest) = some h := by
  induction pre with
  | nil =>
    simp only [List.nil_append]
    exact List.find?_cons_of_pos _ (by simp [hh])
  | cons a pre ih =>
    have ha : ¬ ((a.url == dest) = true) := by
      simp only [beq_iff_eq]
      exact hpre a (List.mem_cons_self a pre)
    simp only [List.cons_append]
    rw [List.find?_cons_of_neg (p := fun (k : ServerHook) => k.url == dest) _ ha]
    exact ih (fun k hk => hpre k (List.mem_cons_of_mem a hk))

theorem nodup_id_split {pre post : List ServerHook} {h : ServerHook}
    (hN : ((pre ++ h :: post).map ServerHook.id).Nodup) :
    (∀ k ∈ pre, k.id ≠ h.id) ∧ (∀ k ∈ post, k.id ≠ h.id) := by
  simp only [List.map_append, List.map_cons] at hN
  rw [List.nodup_append] at hN
  obtain ⟨_, h2, h3⟩ := hN
  rw [List.nodup_cons] at h2
  refine ⟨fun k hk he => ?_, fun k hk he => ?_⟩
  · exact h3 (List.mem_map_of_mem ServerHook.id hk)
      (by rw [he]; exact List.mem_cons_self _ _)
  · exact h2.1 (he ▸ List.mem_map_of_mem ServerHook.id hk)

theorem createWebhookState_pos (dest gp rn : String) (pre post : List ServerHook)
    (h : ServerHook) (fresh : Nat)
    (hpre : ∀ k ∈ pre, k.url ≠ dest) (hh : h.url = dest)
    (hN : ((pre ++ h :: post).map ServerHook.id).Nodup) :
    createWebhookState dest gp rn (pre ++ h :: post) fresh =
      (pre ++ post ++ [⟨fresh, dest⟩], fresh + 1,
       [ApiCall.fetchHooks (projectPath gp rn),
        ApiCall.deleteHook (projectPath gp rn) h.id,
        ApiCall.createHook (projectPath gp rn) (webhookConfig dest)]) := by
  have hfind := find?_url_first pre post h hpre hh
  obtain ⟨hpreid, hpostid⟩ := nodup_id_split hN
  have hq1 : pre.filter (fun k => k.id != h.id) = pre :=
    List.filter_eq_self.mpr (fun a ha => by
      simp only [bne_iff_ne, ne_eq, decide_not]
      simp [hpreid a ha])
  have hq2 : post.filter (fun k => k.id != h.id) = post :=
    List.filter_eq_self.mpr (fun a ha => by
      simp only [bne_iff_ne, ne_eq, decide_not]
      simp [hpostid a ha])
  simp [createWebhookState, hfind, List.filter_append, List.filter_cons, hq1, hq2]

theorem createWebhookState_neg (dest gp rn : String) (hooks : List ServerHook)
    (fresh : Nat) (hno : ∀ k ∈ hooks, k.url ≠ dest) :
    createWebhookState dest gp rn hooks fresh =
      (hooks ++ [⟨fresh, dest⟩], fresh + 1,
       [ApiCall.fetchHooks (projectPath gp rn),
        ApiCall.createHook (projectPath gp rn) (webhookConfig dest)]) := by
  have hfind : hooks.find? (fun k => k.url == dest) = none :=
    List.find?_eq_none.mpr (fun k hk => by simp [hno k hk])
  simp [createWebhookState, hfind]

theorem state_shape (dest gp rn : String) (hooks : List ServerHook) (fresh : Nat) :
    ∃ body : List ServerHook, body.Sublist hooks ∧
      (createWebhookState dest gp rn hooks fresh).1 = body ++ [⟨fresh, dest⟩] ∧
      (createWebhookState dest gp rn hooks fresh).2.1 = fresh + 1 := by
  cases hfind : hooks.find? (fun k => k.url == dest) with
  | none =>
    exact ⟨hooks, List.Sublist.refl _, by simp [createWebhookState, hfind],
      by simp [createWebhookState, hfind]⟩
  | some h =>
    exact ⟨hooks.filter (fun k => k.id != h.id), List.filter_sublist _,
      by simp [createWebhookState, hfind], by simp [createWebhookState, hfind]⟩

theorem countMatching_append (dest : String) (a b : List ServerHook) :
    countMatching dest (a ++ b) = countMatching dest a + countMatching dest b := by
  simp [countMatching, List.filter_append]

theorem countMatching_run (dest gp rn : String) (hooks : List ServerHook)
    (fresh : Nat) (hN : (hooks.map ServerHook.id).Nodup) :
    countMatching dest (createWebhookState dest gp rn hooks fresh).1 =
      max (countMatching dest hooks) 1 := by
  cases hfind : hooks.find? (fun k => k.url == dest) with
  | none =>
    have h0 : countMatching dest hooks = 0 := by
      have := List.find?_eq_none.mp hfind
      simp only [countMatching, List.length_eq_zero, List.filter_eq_nil_iff]
      exact this
    have hstate : (createWebhookState dest gp rn hooks fresh).1 =
        hooks ++ [⟨fresh, dest⟩] := by
      simp [createWebhookState, hfind]
    have hone : countMatching dest [⟨fresh, dest⟩] = 1 := by
      simp [countMatching]
    rw [hstate, countMatching_append, h0, hone]
    simp
  | some h =>
    rw [List.find?_eq_some] at hfind
    obtain ⟨hp, pre, post, rfl, hpre⟩ := hfind
    have hh : h.url = dest := by simpa using hp
    have hpreurl : ∀ k ∈ pre, k.url ≠ dest := by
      intro k hk
      have := hpre k hk
      simpa using this
    obtain ⟨hpreid, hpostid⟩ := nodup_id_split hN
    rw [createWebhookState_pos dest gp rn pre post h fresh hpreurl hh hN]
    have e1 : countMatching dest (pre ++ post ++ [⟨fresh, dest⟩]) =
        countMatching dest pre + countMatching dest post + 1 := by
      rw [countMatching_append, countMatching_append]
      simp [countMatching]
    have e2 : countMatching dest (pre ++ h :: post) =
        countMatching dest pre + countMatching dest post + 1 := by
      rw [countMatching_append]
      simp only [countMatching, List.filter_cons]
      simp [hh]
      omega
    rw [e1, e2]
    omega

theorem nodup_run (dest gp rn : String) (hooks : List ServerHook) (fresh : Nat)
    (hN : (hooks.map ServerHook.id).Nodup) (hfw : ∀ k ∈ hooks, k.id < fresh) :
    ((createWebhookState dest gp rn hooks fresh).1.map ServerHook.id).Nodup := by
  obtain ⟨body, hsub, hst, _⟩ := state_shape dest gp rn hooks fresh
  rw [hst]
  simp only [List.map_append, List.map_cons, List.map_nil]
  rw [List.nodup_append]
  refine ⟨(hsub.map ServerHook.id).nodup hN, by simp, ?_⟩
  intro a ha hb
  simp only [List.mem_cons, List.not_mem_nil, or_false] at hb
  subst hb
  obtain ⟨k, hk, hkid⟩ := List.mem_map.mp ha
  have : k ∈ hooks := hsub.subset hk
  have := hfw k this
  omega

theorem forward_run (dest gp rn : String) (hooks : List ServerHook) (fresh : Nat)
    (hfw : ∀ k ∈ hooks, k.id < fresh) :
    ∀ k ∈ (createWebhookState dest gp rn hooks fresh).1,
      k.id < (createWebhookState dest gp rn hooks fresh).2.1 := by
  obtain ⟨body, hsub, hst, hfr⟩ := state_shape dest gp rn hooks fresh
  rw [hst, hfr]
  intro k hk
  rcases List.mem_append.mp hk with hk | hk
  · have := hfw k (hsub.subset hk)
    omega
  · simp only [List.mem_cons, List.not_mem_nil, or_false] at hk
    subst hk
    exact Nat.lt_succ_self fresh

/-! ## Claims about the reconciler -/

/-- C1 (counterexample): the claim fails as stated. On a repository that
already holds two webhooks with the destination URL, running the
reconciler twice leaves two matching webhooks, not one: each run deletes
only the first matching hook and then creates a fresh one. -/
theorem c1_counterexample :
    ¬ (countMatching "u"
        (createWebhookState "u" "g" "r"
          (createWebhookState "u" "g" "r" [⟨1, "u"⟩, ⟨2, "u"⟩] 3).1
          (createWebhookState "u" "g" "r" [⟨1, "u"⟩, ⟨2, "u"⟩] 3).2.1).1 = 1) := by
  decide

/-- C1 (amended): reconciling a repository twice in succession leaves
exactly one webhook whose url equals the destination URL, provided the
initial state holds at most one webhook with that URL (and satisfies the
server invariants: hook ids are distinct and the next server-assigned id
is fresh). -/
theorem c1_idempotent_amended (dest gp rn : String) (hooks : List ServerHook)
    (fresh : Nat)
    (hN : (hooks.map ServerHook.id).Nodup)
    (hfw : ∀ k ∈ hooks, k.id < fresh)
    (hcount : countMatching dest hooks ≤ 1) :
    countMatching dest
      (createWebhookState dest gp rn
        (createWebhookState dest gp rn hooks fresh).1
        (createWebhookState dest gp rn hooks fresh).2.1).1 = 1 := by
  have h1 := countMatching_run dest gp rn hooks fresh hN
  have hN1 := nodup_run dest gp rn hooks fresh hN hfw
  have h2 := countMatching_run dest gp rn
    (createWebhookState dest gp rn hooks fresh).1
    (createWebhookState dest gp rn hooks fresh).2.1 hN1
  rw [h1, Nat.max_eq_right hcount] at h2
  simpa using h2

/-- C1 (witness): the amended theorem applied to a repository with one
matching webhook. -/
theorem c1_witness :
    countMatching "u"
      (createWebhookState "u" "g" "r"
        (createWebhookState "u" "g" "r" [⟨0, "u"⟩] 1).1
        (createWebhookState "u" "g" "r" [⟨0, "u"⟩] 1).2.1).1 = 1 :=
  c1_idempotent_amended "u" "g" "r" [⟨0, "u"⟩] 1 (by decide) (by decide) (by decide)

/-- C3: during one reconciliation, when some existing webhook has url
equal (by exact, case-sensitive string equality) to the destination URL,
the trace is fetch, then delete of the id of the first such webhook, then
create — the delete is issued and completes before the create; when no
existing webhook has that url, the trace is fetch then create, with no
delete call at all. -/
theorem c3_delete_before_create (dest gp rn : String) (fresh : Nat) :
    (∀ (pre post : List ServerHook) (h : ServerHook),
      (∀ k ∈ pre, k.url ≠ dest) → h.url = dest →
      (createWebhookState dest gp rn (pre ++ h :: post) fresh).2.2 =
        [ApiCall.fetchHooks (projectPath gp rn),
         ApiCall.deleteHook (projectPath gp rn) h.id,
         ApiCall.createHook (projectPath gp rn) (webhookConfig dest)]) ∧
    (∀ hooks : List ServerHook, (∀ k ∈ hooks, k.url ≠ dest) →
      (createWebhookState dest gp rn hooks fresh).2.2 =
        [ApiCall.fetchHooks (projectPath gp rn),
         ApiCall.createHook (projectPath gp rn) (webhookConfig dest)]) := by
  constructor
  · intro pre post h hpre hh
    have hfind := find?_url_first pre post h hpre hh
    simp [createWebhookState, hfind]
  · intro hooks hno
    have hfind : hooks.find? (fun k => k.url == dest) = none :=
      List.find?_eq_none.mpr (fun k hk => by simp [hno k hk])
    simp [createWebhookState, hfind]

/-- C3 (witness): both branches of the ordering claim at concrete
inputs. -/
theorem c3_witness :
    (createWebhookState "https://x" "g" "r" [⟨1, "u"⟩, ⟨2, "https://x"⟩] 5).2.2 =
      [ApiCall.fetchHooks (projectPath "g" "r"),
       ApiCall.deleteHook (projectPath "g" "r") 2,
       ApiCall.createHook (projectPath "g" "r") (webhookConfig "https://x")] ∧
    (createWebhookState "https://x" "g" "r" [⟨1, "u"⟩] 5).2.2 =
      [ApiCall.fetchHooks (projectPath "g" "r"),
       ApiCall.createHook (projectPath "g" "r") (webhookConfig "https://x")] :=
  ⟨(c3_delete_before_create "https://x" "g" "r" 5).1 [⟨1, "u"⟩] [] ⟨2, "https://x"⟩
      (by decide) rfl,
   (c3_delete_before_create "https://x" "g" "r" 5).2 [⟨1, "u"⟩] (by decide)⟩

/-- C9: in one reconciliation of a repository with distinct hook ids,
exactly one delete call is issued and it names the id of the first
webhook in the fetched list whose url equals the destination URL; every
webhook behind that first match — in particular every further webhook
sharing the destination URL — is still present afterwards. -/
theorem c9_only_first_match_deleted (dest gp rn : String)
    (pre post : List ServerHook) (h : ServerHook) (fresh : Nat)
    (hpre : ∀ k ∈ pre, k.url ≠ dest) (hh : h.url = dest)
    (hN : ((pre ++ h :: post).map ServerHook.id).Nodup) :
    ((createWebhookState dest gp rn (pre ++ h :: post) fresh).2.2.filter isDelete) =
      [ApiCall.deleteHook (projectPath gp rn) h.id] ∧
    ∀ k ∈ post, k ∈ (createWebhookState dest gp rn (pre ++ h :: post) fresh).1 := by
  rw [createWebhookState_pos dest gp rn pre post h fresh hpre hh hN]
  constructor
  · simp [List.filter, isDelete]
  · intro k hk
    simp [hk]

/-- C9 (witness): with two webhooks sharing the destination URL, only the
first is deleted and the second remains. -/
theorem c9_witness :
    ((createWebhookState "d" "g" "r" [⟨1, "u"⟩, ⟨2, "d"⟩, ⟨3, "d"⟩] 9).2.2.filter
        isDelete) = [ApiCall.deleteHook (projectPath "g" "r") 2] ∧
    (⟨3, "d"⟩ : ServerHook) ∈
      (createWebhookState "d" "g" "r" [⟨1, "u"⟩, ⟨2, "d"⟩, ⟨3, "d"⟩] 9).1 := by
  have H := c9_only_first_match_deleted "d" "g" "r" [⟨1, "u"⟩] [⟨3, "d"⟩] ⟨2, "d"⟩ 9
    (by decide) rfl (by decide)
  exact ⟨H.1, H.2 ⟨3, "d"⟩ (by decide)⟩

/-- C10: reconciliation is a frame on non-matching webhooks: the webhooks
whose url differs from the destination URL are exactly the same, in the
same order and with the same fields, before and after the run, and every
delete call issued names the id of some existing webhook whose url equals
the destination URL. -/
theorem c10_frame_non_matching (dest gp rn : String) (hooks : List ServerHook)
    (fresh : Nat) (hN : (hooks.map ServerHook.id).Nodup) :
    (createWebhookState dest gp rn hooks fresh).1.filter (fun k => k.url != dest) =
      hooks.filter (fun k => k.url != dest) ∧
    ∀ q i, ApiCall.deleteHook q i ∈ (createWebhookState dest gp rn hooks fresh).2.2 →
      ∃ h ∈ hooks, h.id = i ∧ h.url = dest := by
  cases hfind : hooks.find? (fun k => k.url == dest) with
  | none =>
    constructor
    · simp [createWebhookState, hfind, List.filter_append, List.filter]
    · intro q i hmem
      simp [createWebhookState, hfind] at hmem
  | some h =>
    have hmem : h ∈ hooks := List.mem_of_find?_eq_some hfind
    have hurl : h.url = dest := by
      have := List.find?_some hfind
      simpa using this
    have hinj := List.inj_on_of_nodup_map hN
    constructor
    · simp only [createWebhookState, hfind, List.filter_append]
      have hsingle : ([⟨fresh, dest⟩] : List ServerHook).filter
          (fun k => k.url != dest) = [] := by simp
      rw [hsingle, List.append_nil, List.filter_filter]
      apply List.filter_congr
      intro k hk
      by_cases hk2 : k.url = dest
      · simp [hk2]
      · have hkid : k.id ≠ h.id := fun he => hk2 (by rw [hinj hk hmem he]; exact hurl)
        simp [hk2, hkid]
    · intro q i hmem2
      simp only [createWebhookState, hfind, List.mem_cons, List.not_mem_nil,
        or_false] at hmem2
      rcases hmem2 with h1 | h1 | h1
      · exact absurd h1 (by simp)
      · refine ⟨h, hmem, ?_, hurl⟩
        injection h1 with _ h2
        exact h2.symm
      · exact absurd h1 (by simp)

/-- C10 (witness): the frame equation and the delete characterization at a
concrete repository state. -/
theorem c10_witness :
    (createWebhookState "d" "g" "r" [⟨1, "u"⟩, ⟨2, "d"⟩] 7).1.filter
        (fun k => k.url != "d") =
      ([⟨1, "u"⟩, ⟨2, "d"⟩] : List ServerHook).filter (fun k => k.url != "d") ∧
    ∃ h ∈ ([⟨1, "u"⟩, ⟨2, "d"⟩] : List ServerHook), h.id = 2 ∧ h.url = "d" := by
  have H := c10_frame_non_matching "d" "g" "r" [⟨1, "u"⟩, ⟨2, "d"⟩] 7 (by decide)
  exact ⟨H.1, H.2 (projectPath "g" "r") 2 (by decide)⟩

/-! ## Resolver lemmas and claims -/

theorem fetchAll_spec (pages : Nat → List Project) (gp : String) :
    ∀ (n start fuel : Nat), n < fuel →
      (pages (start + n)).length < perPage →
      (∀ i, i < n → perPage ≤ (pages (start + i)).length) →
      fetchAllProjects pages gp fuel start =
        (((List.range' start (n + 1)).map pages).flatten,
         (List.range' start (n + 1)).map (fun pg => ⟨gp, pg, perPage, true⟩)) := by
  intro n
  induction n with
  | zero =>
    intro start fuel hfuel hshort _
    match fuel, hfuel with
    | fuel + 1, _ =>
      simp only [Nat.add_zero] at hshort
      simp [fetchAllProjects, hshort, List.range'_one]
  | succ n ih =>
    intro start fuel hfuel hshort hfull
    match fuel, hfuel with
    | fuel + 1, hfuel =>
      have hfull0 : perPage ≤ (pages start).length := by
        have := hfull 0 (Nat.succ_pos n)
        simpa using this
      have hnot : ¬ ((pages start).length < perPage) := Nat.not_lt.mpr hfull0
      have hshort1 : (pages (start + 1 + n)).length < perPage := by
        have harith : start + 1 + n = start + (n + 1) := by omega
        rw [harith]; exact hshort
      have hfull1 : ∀ i, i < n → perPage ≤ (pages (start + 1 + i)).length := by
        intro i hi
        have harith : start + 1 + i = start + (i + 1) := by omega
        rw [harith]
        exact hfull (i + 1) (by omega)
      have ihh := ih (start + 1) fuel (Nat.lt_of_succ_lt_succ hfuel) hshort1 hfull1
      simp only [fetchAllProjects, hnot, if_neg, if_false, ite_false]
      rw [ihh]
      simp [List.range'_succ]

/-- C2: for a wildcard group expansion whose catalog returns full pages
(of the fixed size perPage = 100) up to page n and a short page at page
n + 1, the walk issues exactly the queries for pages 1 through n + 1 —
each with per_page = perPage and include_subgroups — in order, stopping
at the first short page, and yields one RepositoryRef per returned
project, pages concatenated in request order. -/
theorem c2_pagination (catalog : String → Nat → List Project) (gp : String)
    (n fuel : Nat) (hfuel : n < fuel)
    (hshort : (catalog gp (1 + n)).length < perPage)
    (hfull : ∀ i, i < n → perPage ≤ (catalog gp (1 + i)).length) :
    getAllGroupRepositories catalog fuel gp =
      ((((List.range' 1 (n + 1)).map (catalog gp)).flatten).map deriveRef,
       (List.range' 1 (n + 1)).map (fun pg => ⟨gp, pg, perPage, true⟩)) := by
  unfold getAllGroupRepositories
  rw [fetchAll_spec (catalog gp) gp n 1 fuel hfuel hshort hfull]

/-- C5: every RepositoryRef yielded by a wildcard expansion is derived
from the path_with_namespace of the corresponding returned project: the
repo name is its final slash-separated segment and the group path the
remaining segments rejoined — not the literal group prefix of the
manifest line. -/
theorem c5_ref_from_project_path (catalog : String → Nat → List Project)
    (gp : String) (n fuel : Nat) (hfuel : n < fuel)
    (hshort : (catalog gp (1 + n)).length < perPage)
    (hfull : ∀ i, i < n → perPage ≤ (catalog gp (1 + i)).length) :
    (getAllGroupRepositories catalog fuel gp).1 =
      (((List.range' 1 (n + 1)).map (catalog gp)).flatten).map
        (fun proj =>
          ⟨jsJoin "/" ((jsSplit '/' proj.path_with_namespace).dropLast),
           (jsSplit '/' proj.path_with_namespace).getLastD ""⟩) := by
  unfold getAllGroupRepositories
  rw [fetchAll_spec (catalog gp) gp n 1 fuel hfuel hshort hfull]
  rfl

/-- C4: resolution of a manifest line whose final slash-separated segment
is not the asterisk yields exactly one RepositoryRef — group path is the
segments except the last rejoined by the slash, repo name the last
segment — and issues no catalog query. -/
theorem c4_direct_line (catalog : String → Nat → List Project) (fuel : Nat)
    (line : String)
    (hstar : (jsSplit '/' line).getLastD "" ≠ "*") :
    resolveLine catalog fuel line =
      ([⟨jsJoin "/" ((jsSplit '/' line).dropLast),
         (jsSplit '/' line).getLastD ""⟩], []) := by
  simp only [List.getLastD_eq_getLast?] at hstar
  simp [resolveLine, parseLine, hstar]

/-- C4 (witness): the direct line teamA/svcA resolves, with no catalog
query, to the single ref with group teamA and repo svcA. -/
theorem c4_witness :
    resolveLine (fun _ _ => []) 0 "teamA/svcA" = ([⟨"teamA", "svcA"⟩], []) :=
  (c4_direct_line (fun _ _ => []) 0 "teamA/svcA" (by decide)).trans (by decide)

/-- A concrete catalog used by the pagination witnesses: group teamB has
a full first page of 100 projects and a short second page. -/
def catalogW : String → Nat → List Project := fun g pg =>
  if g = "teamB" then
    if pg = 1 then (List.range perPage).map (fun i => ⟨i, "x", "teamB/sub/x"⟩)
    else if pg = 2 then [⟨200, "y", "teamB/y"⟩]
    else []
  else []

/-- C2 (witness): the pagination theorem applied to a catalog whose first
page is full and whose second page is short. -/
theorem c2_witness :
    getAllGroupRepositories catalogW 2 "teamB" =
      ((((List.range' 1 2).map (catalogW "teamB")).flatten).map deriveRef,
       (List.range' 1 2).map (fun pg => ⟨"teamB", pg, perPage, true⟩)) :=
  c2_pagination catalogW "teamB" 1 2 (by decide) (by decide)
    (fun i hi => by
      have : i = 0 := by omega
      subst this
      decide)

/-- C5 (witness): the ref-derivation theorem applied to the same catalog;
note the projects of teamB live at teamB/sub/x and teamB/y, so the
derived group paths are teamB/sub and teamB, not the literal prefix. -/
theorem c5_witness :
    (getAllGroupRepositories catalogW 2 "teamB").1 =
      (((List.range' 1 2).map (catalogW "teamB")).flatten).map
        (fun proj =>
          ⟨jsJoin "/" ((jsSplit '/' proj.path_with_namespace).dropLast),
           (jsSplit '/' proj.path_with_namespace).getLastD ""⟩) :=
  c5_ref_from_project_path catalogW "teamB" 1 2 (by decide) (by decide)
    (fun i hi => by
      have : i = 0 := by omega
      subst this
      decide)

/-! ## Creation payload, failure propagation, degenerate lines -/

/-- C6: every create call issued by the reconciler carries exactly the
fixed payload: the destination URL verbatim, push, merge-request and
issue events true, SSL verification true, the token equal to the
hardcoded constant, and no other keys (in particular no other event
flags). -/
theorem c6_fixed_config (dest gp rn : String) (hooks : List ServerHook)
    (fresh : Nat) (q : String) (cfg : List (String × ConfigVal))
    (hmem : ApiCall.createHook q cfg ∈ (createWebhookState dest gp rn hooks fresh).2.2) :
    cfg = [("url", ConfigVal.str dest),
           ("push_events", ConfigVal.bool true),
           ("merge_requests_events", ConfigVal.bool true),
           ("issues_events", ConfigVal.bool true),
           ("enable_ssl_verification", ConfigVal.bool true),
           ("token", ConfigVal.str "secret-token")] := by
  cases hfind : hooks.find? (fun k => k.url == dest) with
  | some h =>
    simp only [createWebhookState, hfind, List.mem_cons, List.not_mem_nil,
      or_false] at hmem
    rcases hmem with h1 | h1 | h1
    · exact absurd h1 (by simp)
    · exact absurd h1 (by simp)
    · rw [(ApiCall.createHook.injEq _ _ _ _).mp h1 |>.2]
      rfl
  | none =>
    simp only [createWebhookState, hfind, List.mem_cons, List.not_mem_nil,
      or_false] at hmem
    rcases hmem with h1 | h1
    · exact absurd h1 (by simp)
    · rw [(ApiCall.createHook.injEq _ _ _ _).mp h1 |>.2]
      rfl

/-- C6 (witness): the fixed payload at a concrete reconciliation. -/
theorem c6_witness :
    ApiCall.createHook (projectPath "g" "r") (webhookConfig "https://x") ∈
      (createWebhookState "https://x" "g" "r" [] 0).2.2 ∧
    webhookConfig "https://x" =
      [("url", ConfigVal.str "https://x"),
       ("push_events", ConfigVal.bool true),
       ("merge_requests_events", ConfigVal.bool true),
       ("issues_events", ConfigVal.bool true),
       ("enable_ssl_verification", ConfigVal.bool true),
       ("token", ConfigVal.str "secret-token")] :=
  ⟨by decide,
   c6_fixed_config "https://x" "g" "r" [] 0 (projectPath "g" "r")
     (webhookConfig "https://x") (by decide)⟩

/-- C7: when reconciliation of some repository fails, the error
propagates: the whole run returns that error, exits nonzero, its trace is
exactly the traces of the repositories before the failing one followed by
the trace of the failing repository — so no later repository is processed
and nothing follows the failed call; in particular, when the create fails
after a successful delete, the trace of the failing repository ends at
the failed create, with no compensating re-create of the deleted
webhook. -/
theorem c7_failure_propagation (o : Oracle) (dest : String)
    (rs1 rs2 : List RepositoryRef) (r : RepositoryRef) (e : ApiError)
    (h1 : ∀ q ∈ rs1, ∃ w, (createWebhookE o dest q.groupPath q.repoName).1 = .ok w)
    (h2 : (createWebhookE o dest r.groupPath r.repoName).1 = .error e) :
    processRefs o dest (rs1 ++ r :: rs2) =
      (.error e,
       ((rs1.map (fun q => (createWebhookE o dest q.groupPath q.repoName).2)).flatten)
         ++ (createWebhookE o dest r.groupPath r.repoName).2) ∧
    exitCode (processRefs o dest (rs1 ++ r :: rs2)).1 = 1 ∧
    (∀ hooks h, o.fetch (projectPath r.groupPath r.repoName) = .ok hooks →
      hooks.find? (fun k => k.url == dest) = some h →
      o.deleteHook (projectPath r.groupPath r.repoName) h.id = .ok () →
      o.createHook (projectPath r.groupPath r.repoName) (webhookConfig dest) =
        .error e →
      (createWebhookE o dest r.groupPath r.repoName).2 =
        [(ApiCall.fetchHooks (projectPath r.groupPath r.repoName), true),
         (ApiCall.deleteHook (projectPath r.groupPath r.repoName) h.id, true),
         (ApiCall.createHook (projectPath r.groupPath r.repoName)
            (webhookConfig dest), false)]) := by
  have main : ∀ rs : List RepositoryRef,
      (∀ q ∈ rs, ∃ w, (createWebhookE o dest q.groupPath q.repoName).1 = .ok w) →
      processRefs o dest (rs ++ r :: rs2) =
        (.error e,
         ((rs.map (fun q => (createWebhookE o dest q.groupPath q.repoName).2)).flatten)
           ++ (createWebhookE o dest r.groupPath r.repoName).2) := by
    intro rs
    induction rs with
    | nil =>
      intro _
      simp [processRefs, h2]
    | cons q qs ih =>
      intro hok
      obtain ⟨w, hw⟩ := hok q (List.mem_cons_self q qs)
      have ihh := ih (fun x hx => hok x (List.mem_cons_of_mem q hx))
      simp [processRefs, hw, ihh]
  refine ⟨main rs1 h1, ?_, ?_⟩
  · rw [main rs1 h1]
    rfl
  · intro hooks h hfetch hfind hdel hcre
    simp [createWebhookE, hfetch, hfind, hdel, hcre]

/-- Oracle for the C7 witness: repository g/a reconciles cleanly, g/b has
one matching hook whose delete succeeds but whose re-create fails with a
500, g/c is never reached. -/
def oracleC7 : Oracle where
  fetch := fun p =>
    if p = "g/a" then .ok []
    else if p = "g/b" then .ok [⟨7, "https://x"⟩]
    else .error ⟨404⟩
  deleteHook := fun _ _ => .ok ()
  createHook := fun p _ =>
    if p = "g/b" then .error ⟨500⟩ else .ok ⟨9, "https://x"⟩

/-- C7 (witness): the failing create of g/b aborts the run with status 1,
g/c is never touched and no re-create follows the failed call. -/
theorem c7_witness :
    processRefs oracleC7 "https://x"
        ([⟨"g", "a"⟩] ++ (⟨"g", "b"⟩ : RepositoryRef) :: [⟨"g", "c"⟩]) =
      (.error ⟨500⟩,
       (([⟨"g", "a"⟩] : List RepositoryRef).map
           (fun q => (createWebhookE oracleC7 "https://x" q.groupPath q.repoName).2)).flatten
         ++ (createWebhookE oracleC7 "https://x" "g" "b").2) ∧
    exitCode (processRefs oracleC7 "https://x"
        ([⟨"g", "a"⟩] ++ (⟨"g", "b"⟩ : RepositoryRef) :: [⟨"g", "c"⟩])).1 = 1 ∧
    (createWebhookE oracleC7 "https://x" "g" "b").2 =
      [(ApiCall.fetchHooks "g/b", true),
       (ApiCall.deleteHook "g/b" 7, true),
       (ApiCall.createHook "g/b" (webhookConfig "https://x"), false)] := by
  have H := c7_failure_propagation oracleC7 "https://x" [⟨"g", "a"⟩] [⟨"g", "c"⟩]
    ⟨"g", "b"⟩ ⟨500⟩
    (by
      intro q hq
      simp only [List.mem_cons, List.not_mem_nil, or_false] at hq
      subst hq
      exact ⟨⟨9, "https://x"⟩, rfl⟩)
    rfl
  exact ⟨H.1, H.2.1, H.2.2 [⟨7, "https://x"⟩] ⟨7, "https://x"⟩ rfl rfl rfl rfl⟩

/-- C8 (counterexample): the claim quantifies over every manifest line
with no slash, but the line consisting of the single asterisk character
has no slash and does not resolve to the single ref with empty group
path: it is treated as a wildcard over the empty group path and issues a
catalog query. -/
theorem c8_counterexample :
    ¬ (resolveLine (fun _ _ => []) 1 "*" = ([⟨"", "*"⟩], [])) := by
  decide

/-- C8 (amended): every manifest line with no slash other than the bare
asterisk is kept by the manifest filter (when nonblank), resolves without
special validation to the single ref with empty group path and the whole
line as repo name, produces the downstream project path of a slash
followed by the line, and when the API rejects that path the run
surfaces a reconciliation error and exits nonzero rather than skipping. -/
theorem c8_no_slash_line (line dest : String) (o : Oracle) (e : ApiError)
    (hslash : '/' ∉ line.data) (hstar : line ≠ "*")
    (hnl : '\n' ∉ line.data) (hblank : jsTrim line ≠ "")
    (hfail : o.fetch ("/" ++ line) = .error e) :
    manifestLines line = [line] ∧
    parseLine line = ("", line) ∧
    (∀ catalog fuel, resolveLine catalog fuel line = ([⟨"", line⟩], [])) ∧
    projectPath "" line = "/" ++ line ∧
    (processRefs o dest [⟨"", line⟩]).1 = .error e ∧
    exitCode (processRefs o dest [⟨"", line⟩]).1 = 1 := by
  have hsplit : jsSplit '/' line = [line] := jsSplit_of_not_mem hslash
  have hj : jsJoin "/" ([] : List String) = "" := rfl
  have hparse : parseLine line = ("", line) := by
    simp [parseLine, hsplit, hj]
  have hpp : projectPath "" line = "/" ++ line := rfl
  refine ⟨?_, hparse, ?_, hpp, ?_, ?_⟩
  · simp [manifestLines, jsSplit_of_not_mem hnl, hblank]
  · intro catalog fuel
    simp [resolveLine, hparse, hstar]
  · simp [processRefs, createWebhookE, hpp, hfail]
  · simp [processRefs, createWebhookE, hpp, hfail, exitCode]

/-- Oracle for the C8 witness: the API rejects every project path. -/
def oracleC8 : Oracle where
  fetch := fun _ => .error ⟨404⟩
  deleteHook := fun _ _ => .ok ()
  createHook := fun _ _ => .ok ⟨0, ""⟩

/-- C8 (witness): the line onlyname, with no slash, is kept, resolves to
the empty group path and whole-line repo name, yields project path
/onlyname, and the run aborts with a reconciliation error. -/
theorem c8_witness :
    manifestLines "onlyname" = ["onlyname"] ∧
    parseLine "onlyname" = ("", "onlyname") ∧
    resolveLine (fun _ _ => []) 0 "onlyname" = ([⟨"", "onlyname"⟩], []) ∧
    projectPath "" "onlyname" = "/onlyname" ∧
    exitCode (processRefs oracleC8 "https://x" [⟨"", "onlyname"⟩]).1 = 1 := by
  have H := c8_no_slash_line "onlyname" "https://x" oracleC8 ⟨404⟩
    (by decide) (by decide) (by decide) (by decide) rfl
  exact ⟨H.1, H.2.1, H.2.2.1 (fun _ _ => []) 0, H.2.2.2.1, H.2.2.2.2.2⟩

end CreateGitlabWebhooks
